import Mathlib

/-!
Verification development for a contact-code exposure-notification backend.
The program keeps 32-byte contact codes (`Ccn`) in an hour-bucketed
append-only store and answers exposure checks by expanding each stored
code through a SHA-256 ratchet and an HMAC/AES-256 identifier stream.

Byte sequences are modelled as `List Nat` with values below 256; machine
words are `Nat` reduced modulo the word size where overflow matters.
-/

set_option maxRecDepth 4000

abbrev Bytes := List Nat

/-- Truncate to 32 bits. -/
def u32 (n : Nat) : Nat := n % 4294967296

/-- Little-endian 4-byte encoding of a 32-bit value (`put_u32_le`). -/
def u32le (n : Nat) : Bytes :=
  [n % 256, n / 256 % 256, n / 65536 % 256, n / 16777216 % 256]

/-- Little-endian 32-bit read of the first four bytes (`get_u32_le`). -/
def leU32 (bs : Bytes) : Nat :=
  bs.getD 0 0 + bs.getD 1 0 * 256 + bs.getD 2 0 * 65536 + bs.getD 3 0 * 16777216

/-- One bit-step of the reflected CRC-32/IEEE algorithm. -/
def crc32Step (crc : Nat) : Nat :=
  if crc % 2 = 1 then (crc / 2) ^^^ 3988292384 else crc / 2

/-- Fold one byte into the CRC accumulator. -/
def crc32Byte (crc b : Nat) : Nat := crc32Step^[8] (crc ^^^ b)

/-- CRC-32/IEEE checksum (`crc32::checksum_ieee`). -/
def crc32 (bs : Bytes) : Nat := (bs.foldl crc32Byte 4294967295) ^^^ 4294967295

example : crc32 (List.replicate 32 0) = 420107693 := by decide

theorem crc32Step_lt {crc : Nat} (h : crc < 4294967296) :
    crc32Step crc < 4294967296 := by
  unfold crc32Step
  split
  · exact Nat.xor_lt_two_pow (n := 32) (by omega) (by decide)
  · omega

theorem crc32Byte_lt {crc b : Nat} (h : crc < 4294967296) (hb : b < 4294967296) :
    crc32Byte crc b < 4294967296 := by
  unfold crc32Byte
  have step : ∀ x, x < 4294967296 → crc32Step^[8] x < 4294967296 := by
    intro x hxlt
    simp only [Function.iterate_succ, Function.iterate_zero, Function.comp_apply, id_eq]
    exact crc32Step_lt (crc32Step_lt (crc32Step_lt (crc32Step_lt
      (crc32Step_lt (crc32Step_lt (crc32Step_lt (crc32Step_lt hxlt)))))))
  exact step _ (Nat.xor_lt_two_pow (n := 32) h hb)

theorem crc32_lt (bs : Bytes) (hbs : ∀ b ∈ bs, b < 256) : crc32 bs < 4294967296 := by
  unfold crc32
  have h : ∀ (l : Bytes), (∀ b ∈ l, b < 256) → ∀ (acc : Nat), acc < 4294967296 →
      l.foldl crc32Byte acc < 4294967296 := by
    intro l
    induction l with
    | nil => intro _ acc h; exact h
    | cons b rest ih =>
      intro hl acc h
      have hb : b < 256 := hl b (by simp)
      exact List.foldl_cons _ _ ▸
        ih (fun x hx => hl x (by simp [hx])) (crc32Byte acc b)
          (crc32Byte_lt h (by omega))
  exact Nat.xor_lt_two_pow (n := 32) (h bs hbs 4294967295 (by decide)) (by decide)

theorem leU32_u32le {n : Nat} (h : n < 4294967296) : leU32 (u32le n) = n := by
  show n % 256 + n / 256 % 256 * 256 + n / 65536 % 256 * 65536 +
    n / 16777216 % 256 * 16777216 = n
  omega

theorem u32le_length (n : Nat) : (u32le n).length = 4 := rfl

/-! ### URL-safe base64 without padding (the `base64` crate's URL_SAFE_NO_PAD) -/

/-- The URL-safe base64 alphabet. -/
def b64Alphabet : List Char :=
  "ABCDEFGHIJKLMNOPQRSTUVWXYZabcdefghijklmnopqrstuvwxyz0123456789-_".data

/-- Character for a six-bit value. -/
def b64Char (i : Nat) : Char := b64Alphabet.getD i 'A'

/-- Six-bit value of an alphabet character, `none` for foreign characters. -/
def b64Val (c : Char) : Option Nat := b64Alphabet.findIdx? (· = c)

/-- Split a byte sequence into six-bit groups, unpadded. -/
def b64Groups : Bytes → List Nat
  | b1 :: b2 :: b3 :: rest =>
      b1 / 4 :: (b1 % 4 * 16 + b2 / 16) :: (b2 % 16 * 4 + b3 / 64) :: (b3 % 64) ::
        b64Groups rest
  | [b1, b2] => [b1 / 4, b1 % 4 * 16 + b2 / 16, b2 % 16 * 4]
  | [b1] => [b1 / 4, b1 % 4 * 16]
  | [] => []

/-- Reassemble bytes from six-bit groups; rejects a lone trailing group. -/
def b64Ungroup : List Nat → Option Bytes
  | s1 :: s2 :: s3 :: s4 :: rest => do
      let r ← b64Ungroup rest
      pure ((s1 * 4 + s2 / 16) :: (s2 % 16 * 16 + s3 / 4) :: (s3 % 4 * 64 + s4) :: r)
  | [s1, s2, s3] => some [s1 * 4 + s2 / 16, s2 % 16 * 16 + s3 / 4]
  | [s1, s2] => some [s1 * 4 + s2 / 16]
  | [_] => none
  | [] => some []

/-- Encode bytes as URL-safe unpadded base64 text. -/
def b64Encode (bs : Bytes) : List Char := (b64Groups bs).map b64Char

/-- Decode URL-safe unpadded base64 text. -/
def b64Decode (cs : List Char) : Option Bytes := do
  let ss ← cs.mapM b64Val
  b64Ungroup ss

theorem b64Val_b64Char : ∀ i < 64, b64Val (b64Char i) = some i := by decide

theorem b64Groups_lt (bs : Bytes) (h : ∀ b ∈ bs, b < 256) :
    ∀ s ∈ b64Groups bs, s < 64 := by
  induction bs using b64Groups.induct with
  | case1 b1 b2 b3 rest ih =>
    intro s hs
    simp only [b64Groups, List.mem_cons] at hs
    have h1 : b1 < 256 := h b1 (by simp)
    have h2 : b2 < 256 := h b2 (by simp)
    have h3 : b3 < 256 := h b3 (by simp)
    rcases hs with rfl | rfl | rfl | rfl | hs
    · omega
    · omega
    · omega
    · omega
    · exact ih (fun b hb => h b (by simp [hb])) s hs
  | case2 b1 b2 =>
    intro s hs
    have h1 : b1 < 256 := h b1 (by simp)
    have h2 : b2 < 256 := h b2 (by simp)
    simp only [b64Groups, List.mem_cons, List.not_mem_nil, or_false] at hs
    rcases hs with rfl | rfl | rfl <;> omega
  | case3 b1 =>
    intro s hs
    have h1 : b1 < 256 := h b1 (by simp)
    simp only [b64Groups, List.mem_cons, List.not_mem_nil, or_false] at hs
    rcases hs with rfl | rfl <;> omega
  | case4 => intro s hs; simp [b64Groups] at hs

theorem b64Ungroup_b64Groups (bs : Bytes) (h : ∀ b ∈ bs, b < 256) :
    b64Ungroup (b64Groups bs) = some bs := by
  induction bs using b64Groups.induct with
  | case1 b1 b2 b3 rest ih =>
    have h1 : b1 < 256 := h b1 (by simp)
    have h2 : b2 < 256 := h b2 (by simp)
    have h3 : b3 < 256 := h b3 (by simp)
    have ih' := ih (fun b hb => h b (by simp [hb]))
    simp only [b64Groups, b64Ungroup, ih', Option.bind_eq_bind, Option.some_bind]
    have e1 : b1 / 4 * 4 + (b1 % 4 * 16 + b2 / 16) / 16 = b1 := by omega
    have e2 : (b1 % 4 * 16 + b2 / 16) % 16 * 16 + (b2 % 16 * 4 + b3 / 64) / 4 = b2 := by
      omega
    have e3 : (b2 % 16 * 4 + b3 / 64) % 4 * 64 + b3 % 64 = b3 := by omega
    rw [e1, e2, e3]; rfl
  | case2 b1 b2 =>
    have h1 : b1 < 256 := h b1 (by simp)
    have h2 : b2 < 256 := h b2 (by simp)
    simp only [b64Groups, b64Ungroup]
    have e1 : b1 / 4 * 4 + (b1 % 4 * 16 + b2 / 16) / 16 = b1 := by omega
    have e2 : (b1 % 4 * 16 + b2 / 16) % 16 * 16 + b2 % 16 * 4 / 4 = b2 := by omega
    rw [e1, e2]
  | case3 b1 =>
    have h1 : b1 < 256 := h b1 (by simp)
    simp only [b64Groups, b64Ungroup]
    have e1 : b1 / 4 * 4 + b1 % 4 * 16 / 16 = b1 := by omega
    rw [e1]
  | case4 => simp [b64Groups, b64Ungroup]

theorem b64CharMapM (l : List Nat) (h : ∀ s ∈ l, s < 64) :
    List.mapM b64Val (l.map b64Char) = some l := by
  induction l with
  | nil => rfl
  | cons s rest ih =>
    rw [List.map_cons, List.mapM_cons, b64Val_b64Char s (h s (by simp)),
      ih (fun x hx => h x (by simp [hx]))]
    rfl

theorem b64Decode_b64Encode (bs : Bytes) (h : ∀ b ∈ bs, b < 256) :
    b64Decode (b64Encode bs) = some bs := by
  unfold b64Decode b64Encode
  rw [b64CharMapM _ (b64Groups_lt bs h)]
  simpa using b64Ungroup_b64Groups bs h

theorem b64Groups_length (bs : Bytes) :
    (b64Groups bs).length = (4 * bs.length + 2) / 3 := by
  induction bs using b64Groups.induct with
  | case1 b1 b2 b3 rest ih => simp only [b64Groups, List.length_cons, ih]; omega
  | case2 b1 b2 => simp [b64Groups]
  | case3 b1 => simp [b64Groups]
  | case4 => simp [b64Groups]

theorem b64Encode_length (bs : Bytes) :
    (b64Encode bs).length = (4 * bs.length + 2) / 3 := by
  simpa [b64Encode] using b64Groups_length bs

/-! ### SHA-256 (the `sha2` crate's `Sha256`) -/

/-- Round constants. -/
def shaK : List Nat :=
  [1116352408, 1899447441, 3049323471, 3921009573, 961987163, 1508970993,
   2453635748, 2870763221, 3624381080, 310598401, 607225278, 1426881987,
   1925078388, 2162078206, 2614888103, 3248222580, 3835390401, 4022224774,
   264347078, 604807628, 770255983, 1249150122, 1555081692, 1996064986,
   2554220882, 2821834349, 2952996808, 3210313671, 3336571891, 3584528711,
   113926993, 338241895, 666307205, 773529912, 1294757372, 1396182291,
   1695183700, 1986661051, 2177026350, 2456956037, 2730485921, 2820302411,
   3259730800, 3345764771, 3516065817, 3600352804, 4094571909, 275423344,
   430227734, 506948616, 659060556, 883997877, 958139571, 1322822218,
   1537002063, 1747873779, 1955562222, 2024104815, 2227730452, 2361852424,
   2428436474, 2756734187, 3204031479, 3329325298]

/-- Initial hash value. -/
def shaH0 : List Nat :=
  [1779033703, 3144134277, 1013904242, 2773480762,
   1359893119, 2600822924, 528734635, 1541459225]

/-- Rotate a 32-bit word right. -/
def rotr (n x : Nat) : Nat := u32 ((x >>> n) ||| (x <<< (32 - n)))

def shaS0 (x : Nat) : Nat := rotr 7 x ^^^ rotr 18 x ^^^ (x >>> 3)
def shaS1 (x : Nat) : Nat := rotr 17 x ^^^ rotr 19 x ^^^ (x >>> 10)
def shaB0 (x : Nat) : Nat := rotr 2 x ^^^ rotr 13 x ^^^ rotr 22 x
def shaB1 (x : Nat) : Nat := rotr 6 x ^^^ rotr 11 x ^^^ rotr 25 x
def shaCh (e f g : Nat) : Nat := (e &&& f) ^^^ ((e ^^^ 4294967295) &&& g)
def shaMaj (a b c : Nat) : Nat := (a &&& b) ^^^ (a &&& c) ^^^ (b &&& c)

/-- Big-endian 8-byte encoding of the bit length. -/
def u64be (n : Nat) : Bytes :=
  [n / 72057594037927936 % 256, n / 281474976710656 % 256,
   n / 1099511627776 % 256, n / 4294967296 % 256,
   n / 16777216 % 256, n / 65536 % 256, n / 256 % 256, n % 256]

/-- Merkle–Damgård padding to a multiple of 64 bytes. -/
def shaPad (msg : Bytes) : Bytes :=
  msg ++ 128 :: List.replicate ((119 - msg.length % 64) % 64) 0 ++ u64be (8 * msg.length)

/-- Split into 64-byte blocks, with an explicit fuel bound for structural recursion. -/
def chunks64Go : Nat → Bytes → List Bytes
  | 0, _ => []
  | Nat.succ n, l => if l.isEmpty then [] else l.take 64 :: chunks64Go n (l.drop 64)

/-- Split into 64-byte blocks. -/
def chunks64 (l : Bytes) : List Bytes := chunks64Go l.length l

/-- Big-endian 32-bit words of a block. -/
def beWords (l : Bytes) : List Nat :=
  match l with
  | b0 :: b1 :: b2 :: b3 :: rest =>
      (b0 * 16777216 + b1 * 65536 + b2 * 256 + b3) :: beWords rest
  | _ => []

/-- Extend sixteen words to the 64-entry message schedule. -/
def shaSched (w : List Nat) : List Nat :=
  (List.range 48).foldl
    (fun w i =>
      w ++ [u32 (shaS1 (w.getD (i + 14) 0) + w.getD (i + 9) 0 +
        shaS0 (w.getD (i + 1) 0) + w.getD i 0)])
    w

/-- Eight working variables of the compression loop. -/
structure ShaState where
  a : Nat
  b : Nat
  c : Nat
  d : Nat
  e : Nat
  f : Nat
  g : Nat
  h : Nat

/-- One compression round. -/
def shaRound (w : List Nat) (s : ShaState) (i : Nat) : ShaState :=
  let t1 := u32 (s.h + shaB1 s.e + shaCh s.e s.f s.g + shaK.getD i 0 + w.getD i 0)
  let t2 := u32 (shaB0 s.a + shaMaj s.a s.b s.c)
  { a := u32 (t1 + t2), b := s.a, c := s.b, d := s.c,
    e := u32 (s.d + t1), f := s.e, g := s.f, h := s.g }

/-- Compress one 64-byte block into the running hash. -/
def shaBlock (hs : List Nat) (block : Bytes) : List Nat :=
  let w := shaSched (beWords block)
  let s0 : ShaState :=
    { a := hs.getD 0 0, b := hs.getD 1 0, c := hs.getD 2 0, d := hs.getD 3 0,
      e := hs.getD 4 0, f := hs.getD 5 0, g := hs.getD 6 0, h := hs.getD 7 0 }
  let s := (List.range 64).foldl (shaRound w) s0
  [u32 (hs.getD 0 0 + s.a), u32 (hs.getD 1 0 + s.b), u32 (hs.getD 2 0 + s.c),
   u32 (hs.getD 3 0 + s.d), u32 (hs.getD 4 0 + s.e), u32 (hs.getD 5 0 + s.f),
   u32 (hs.getD 6 0 + s.g), u32 (hs.getD 7 0 + s.h)]

/-- Serialize eight words big-endian. -/
def beBytes (ws : List Nat) : Bytes :=
  ws.flatMap fun w => [w / 16777216 % 256, w / 65536 % 256, w / 256 % 256, w % 256]

/-- SHA-256 digest of a byte sequence. -/
def sha256 (msg : Bytes) : Bytes :=
  beBytes ((chunks64 (shaPad msg)).foldl shaBlock shaH0)

example : sha256 [97, 98, 99] =
    [186, 120, 22, 191, 143, 1, 207, 234, 65, 65, 64, 222, 93, 174, 34, 35,
     176, 3, 97, 163, 150, 23, 122, 156, 180, 16, 255, 97, 242, 0, 21, 173] := by
  decide

example : sha256 (List.replicate 32 120) =
    [198, 46, 70, 21, 189, 57, 226, 34, 87, 47, 58, 27, 247, 194, 19, 46,
     161, 230, 91, 23, 236, 128, 80, 71, 189, 107, 40, 66, 197, 147, 73, 63] := by
  decide

/-! ### HMAC-SHA256 (the `hmac` crate) -/

/-- Fold each byte with a pad constant, extending the key to 64 bytes. -/
def hmacPad (key : Bytes) (padByte : Nat) : Bytes :=
  (key ++ List.replicate (64 - key.length) 0).map (· ^^^ padByte)

/-- HMAC-SHA256 of a message under a key of at most 64 bytes. -/
def hmacSha256 (key msg : Bytes) : Bytes :=
  sha256 (hmacPad key 92 ++ sha256 (hmacPad key 54 ++ msg))

example : hmacSha256
    [232, 140, 94, 38, 135, 46, 178, 5, 116, 74, 237, 102, 45, 236, 240, 39,
     23, 58, 83, 11, 42, 106, 199, 1, 146, 120, 128, 24, 5, 227, 119, 176]
    [198, 46, 70, 21, 189, 57, 226, 34, 87, 47, 58, 27, 247, 194, 19, 46,
     161, 230, 91, 23, 236, 128, 80, 71, 189, 107, 40, 66, 197, 147, 73, 63] =
    [150, 17, 234, 191, 64, 199, 173, 6, 179, 223, 202, 236, 8, 83, 68, 136,
     160, 81, 30, 210, 40, 204, 162, 162, 110, 90, 167, 73, 214, 53, 206, 91] := by
  decide

/-! ### AES-256 block encryption (the `aes` crate's `Aes256`, FIPS-197) -/

/-- The AES S-box. -/
def aesSbox : List Nat :=
  [99, 124, 119, 123, 242, 107, 111, 197, 48, 1, 103, 43, 254, 215, 171, 118,
   202, 130, 201, 125, 250, 89, 71, 240, 173, 212, 162, 175, 156, 164, 114, 192,
   183, 253, 147, 38, 54, 63, 247, 204, 52, 165, 229, 241, 113, 216, 49, 21,
   4, 199, 35, 195, 24, 150, 5, 154, 7, 18, 128, 226, 235, 39, 178, 117,
   9, 131, 44, 26, 27, 110, 90, 160, 82, 59, 214, 179, 41, 227, 47, 132,
   83, 209, 0, 237, 32, 252, 177, 91, 106, 203, 190, 57, 74, 76, 88, 207,
   208, 239, 170, 251, 67, 77, 51, 133, 69, 249, 2, 127, 80, 60, 159, 168,
   81, 163, 64, 143, 146, 157, 56, 245, 188, 182, 218, 33, 16, 255, 243, 210,
   205, 12, 19, 236, 95, 151, 68, 23, 196, 167, 126, 61, 100, 93, 25, 115,
   96, 129, 79, 220, 34, 42, 144, 136, 70, 238, 184, 20, 222, 94, 11, 219,
   224, 50, 58, 10, 73, 6, 36, 92, 194, 211, 172, 98, 145, 149, 228, 121,
   231, 200, 55, 109, 141, 213, 78, 169, 108, 86, 244, 234, 101, 122, 174, 8,
   186, 120, 37, 46, 28, 166, 180, 198, 232, 221, 116, 31, 75, 189, 139, 138,
   112, 62, 181, 102, 72, 3, 246, 14, 97, 53, 87, 185, 134, 193, 29, 158,
   225, 248, 152, 17, 105, 217, 142, 148, 155, 30, 135, 233, 206, 85, 40, 223,
   140, 161, 137, 13, 191, 230, 66, 104, 65, 153, 45, 15, 176, 84, 187, 22]

/-- S-box substitution. -/
def subByte (b : Nat) : Nat := aesSbox.getD b 0

/-- Multiplication by x in GF(2^8). -/
def xtime (a : Nat) : Nat := if a ≥ 128 then (a * 2) ^^^ 283 else a * 2

/-- Exclusive-or of two four-byte words. -/
def xorWord (a b : List Nat) : List Nat := List.zipWith (· ^^^ ·) a b

/-- Rotate a four-byte word left by one. -/
def rotWord (w : List Nat) : List Nat := w.drop 1 ++ w.take 1

/-- Xor the round constant into a word's first byte. -/
def rconXor (rcon : Nat) (w : List Nat) : List Nat :=
  match w with
  | b :: rest => (b ^^^ rcon) :: rest
  | [] => []

/-- One step of AES-256 key expansion; `n` counts the words still to produce. -/
def aesExpandGo (w : List (List Nat)) (rcon : Nat) : Nat → List (List Nat)
  | 0 => w
  | Nat.succ n =>
    let i := w.length
    let prev := w.getD (i - 1) []
    let t :=
      if i % 8 == 0 then rconXor rcon ((rotWord prev).map subByte)
      else if i % 8 == 4 then prev.map subByte
      else prev
    let rcon' := if i % 8 == 0 then xtime rcon else rcon
    aesExpandGo (w ++ [xorWord (w.getD (i - 8) []) t]) rcon' n

/-- AES-256 key expansion: 60 round-key words from a 32-byte key. -/
def aesKeyExpand (key : Bytes) : List (List Nat) :=
  aesExpandGo ((List.range 8).map fun i => (key.drop (4 * i)).take 4) 1 52

/-- Round-key addition; state bytes are indexed `r + 4 c` as in the block. -/
def addRoundKey (w : List (List Nat)) (rnd : Nat) (s : Bytes) : Bytes :=
  (List.range 16).map fun j => s.getD j 0 ^^^ (w.getD (4 * rnd + j / 4) []).getD (j % 4) 0

/-- SubBytes step. -/
def subBytesStep (s : Bytes) : Bytes := s.map subByte

/-- ShiftRows step. -/
def shiftRowsStep (s : Bytes) : Bytes :=
  (List.range 16).map fun j => s.getD (j % 4 + 4 * ((j / 4 + j % 4) % 4)) 0

/-- MixColumns step. -/
def mixColumnsStep (s : Bytes) : Bytes :=
  (List.range 16).map fun j =>
    let c := j / 4
    let a0 := s.getD (4 * c) 0
    let a1 := s.getD (4 * c + 1) 0
    let a2 := s.getD (4 * c + 2) 0
    let a3 := s.getD (4 * c + 3) 0
    match j % 4 with
    | 0 => xtime a0 ^^^ (xtime a1 ^^^ a1) ^^^ a2 ^^^ a3
    | 1 => a0 ^^^ xtime a1 ^^^ (xtime a2 ^^^ a2) ^^^ a3
    | 2 => a0 ^^^ a1 ^^^ xtime a2 ^^^ (xtime a3 ^^^ a3)
    | _ => (xtime a0 ^^^ a0) ^^^ a1 ^^^ a2 ^^^ xtime a3

/-- AES-256 encryption of one 16-byte block. -/
def aesEncrypt (key block : Bytes) : Bytes :=
  let w := aesKeyExpand key
  let s0 := addRoundKey w 0 block
  let s := (List.range 13).foldl
    (fun s r => addRoundKey w (r + 1) (mixColumnsStep (shiftRowsStep (subBytesStep s)))) s0
  addRoundKey w 14 (shiftRowsStep (subBytesStep s))

example : aesEncrypt
    [0, 1, 2, 3, 4, 5, 6, 7, 8, 9, 10, 11, 12, 13, 14, 15, 16, 17, 18, 19,
     20, 21, 22, 23, 24, 25, 26, 27, 28, 29, 30, 31]
    [0, 17, 34, 51, 68, 85, 102, 119, 136, 153, 170, 187, 204, 221, 238, 255] =
    [142, 162, 183, 202, 81, 103, 69, 191, 234, 252, 73, 144, 75, 73, 96, 137] := by
  decide

/-! ### Contact codes (`Ccn`, src/ccn.rs) and temporary contact numbers (`Tcn`, src/tcn.rs) -/

/-- A compact representation of contact numbers: 32 bytes. -/
structure Ccn where
  bytes : Bytes
deriving DecidableEq

/-- A temporary contact number: 16 bytes. -/
structure Tcn where
  bytes : Bytes
deriving DecidableEq

/-- Well-formedness: exactly 32 byte values below 256. -/
def Ccn.wf (c : Ccn) : Prop := c.bytes.length = 32 ∧ ∀ b ∈ c.bytes, b < 256

instance (c : Ccn) : Decidable c.wf := by unfold Ccn.wf; infer_instance

/-- `Ccn::from_bytes`: rejects any length other than 32. -/
def Ccn.fromBytes (b : Bytes) : Option Ccn :=
  if b.length = 32 then some ⟨b⟩ else none

/-- `Tcn::from_bytes`: rejects any length other than 16. -/
def Tcn.fromBytes (b : Bytes) : Option Tcn :=
  if b.length = 16 then some ⟨b⟩ else none

/-- `FromStr for Ccn`: exactly 43 characters of URL-safe unpadded base64. -/
def Ccn.fromStr (s : String) : Option Ccn :=
  if s.length = 43 then (b64Decode s.data).bind Ccn.fromBytes else none

/-- `FromStr for Tcn`: exactly 22 characters of URL-safe unpadded base64. -/
def Tcn.fromStr (s : String) : Option Tcn :=
  if s.length = 22 then (b64Decode s.data).bind Tcn.fromBytes else none

/-- `Display for Ccn`: URL-safe unpadded base64 text. -/
def Ccn.display (c : Ccn) : String := String.mk (b64Encode c.bytes)

/-- `Display for Tcn`: URL-safe unpadded base64 text. -/
def Tcn.display (t : Tcn) : String := String.mk (b64Encode t.bytes)

/-- `Ccn::ratchet`: the SHA-256 digest of the code's bytes is the next code. -/
def Ccn.ratchet (c : Ccn) : Ccn := ⟨sha256 c.bytes⟩

/-- The iterator state of `Ccn::generate_ccns`: starting from `cur`, the
value yielded after `n` further steps. -/
def genCcnsFrom (cur : Ccn) : Nat → Ccn
  | 0 => cur
  | Nat.succ n => genCcnsFrom cur.ratchet n

/-- `Ccn::generate_ccns`: the n-th yielded successor code (0-based). -/
def Ccn.generateCcns (c : Ccn) (n : Nat) : Ccn := genCcnsFrom c.ratchet n

/-- The fixed protocol-wide HMAC key (`BROADCAST_KEY`). -/
def broadcastKey : Bytes :=
  [232, 140, 94, 38, 135, 46, 178, 5, 116, 74, 237, 102, 45, 236, 240, 39,
   23, 58, 83, 11, 42, 106, 199, 1, 146, 120, 128, 24, 5, 227, 119, 176]

/-- The AES key derived in `Ccn::generate_tcns`: HMAC-SHA256 of the code
under the fixed broadcast key. -/
def Ccn.tcnKey (c : Ccn) : Bytes := hmacSha256 broadcastKey c.bytes

/-- `Ccn::generate_tcns`: the n-th yielded identifier (0-based); the cipher
block starts all-zero and is re-encrypted in place before every yield. -/
def Ccn.generateTcns (c : Ccn) (n : Nat) : Tcn :=
  ⟨(aesEncrypt c.tcnKey)^[n + 1] (List.replicate 16 0)⟩

/-! ### The bucketed store (`CcnStore`, src/store.rs)

`Utc::now` is modelled by passing the current hour-bucket index `now`
explicitly; file contents and the in-memory cache are total maps from
bucket index, with `none` for a missing file or an unloaded bucket. -/

/-- `DAYS_WINDOW` from src/store.rs. -/
def DAYS_WINDOW : Nat := 21

/-- The failures a store operation can surface. -/
inductive StoreError
  /-- A trailing partial record: the 36-byte read came up short. -/
  | partialRecord
  /-- A record whose stored checksum does not match its payload. -/
  | badChecksum
  /-- `fetch_buckets` asked to read more than 24 * DAYS_WINDOW hours back. -/
  | rangeTooLarge
deriving DecidableEq

/-- The spec's `CorruptData` class of errors. -/
def StoreError.isCorruptData : StoreError → Bool
  | .partialRecord => true
  | .badChecksum => true
  | .rangeTooLarge => false

/-- The store: per-bucket backing file contents and the in-memory cache. -/
structure CcnStore where
  files : Nat → Option Bytes
  buckets : Nat → Option (List Ccn)

/-- A store just opened over an empty directory. -/
def CcnStore.opened : CcnStore := ⟨fun _ => none, fun _ => none⟩

/-- Point update of a map. -/
def updateFn {α : Type} (f : Nat → α) (k : Nat) (v : α) : Nat → α :=
  fun x => if x = k then v else f x

/-- `HashSet::insert`: add a code to a bucket's set if not yet present. -/
def ccnInsert (c : Ccn) (s : List Ccn) : List Ccn := if c ∈ s then s else c :: s

/-- The 36-byte record `add_ccn` appends for a code. -/
def ccnRecord (c : Ccn) : Bytes := u32le (crc32 c.bytes) ++ c.bytes

/-- Split a byte sequence into chunks of a given positive size; only the
last chunk can be short. Fuel makes the recursion structural. -/
def chunksOfGo (sz : Nat) : Nat → Bytes → List Bytes
  | 0, _ => []
  | Nat.succ n, l => if l.isEmpty then [] else l.take sz :: chunksOfGo sz n (l.drop sz)

/-- Split a byte sequence into chunks of a given positive size. -/
def chunksOf (sz : Nat) (l : Bytes) : List Bytes := chunksOfGo sz l.length l

/-- One turn of the record-reading loop of `ensure_bucket_loaded`: a short
read is a fatal partial record, a checksum mismatch is fatal, otherwise the
payload joins the set. -/
def loadChunk (acc : Except StoreError (List Ccn)) (chunk : Bytes) :
    Except StoreError (List Ccn) := do
  let s ← acc
  if chunk.length < 36 then .error .partialRecord
  else
    let ccn : Ccn := ⟨(chunk.drop 4).take 32⟩
    if leU32 (chunk.take 4) = crc32 ccn.bytes then .ok (ccnInsert ccn s)
    else .error .badChecksum

/-- The record-reading loop of `ensure_bucket_loaded` over a whole file:
consume 36-byte records in order, validating each checksum and inserting
each payload into the set. -/
def loadRecords (content : Bytes) : Except StoreError (List Ccn) :=
  (chunksOf 36 content).foldl loadChunk (.ok [])

/-- `CcnStore::ensure_bucket_loaded`. -/
def CcnStore.ensureBucketLoaded (st : CcnStore) (bucket : Nat) :
    Except StoreError (Bool × CcnStore) :=
  match st.buckets bucket with
  | some _ => .ok (false, st)
  | none =>
    match st.files bucket with
    | none => .ok (true, { st with buckets := updateFn st.buckets bucket (some []) })
    | some content => do
      let s ← loadRecords content
      .ok (true, { st with buckets := updateFn st.buckets bucket (some s) })

/-- The walk of `fetch_buckets` over the requested bucket indices. -/
def fetchGo (st : CcnStore) (rv : List Ccn) :
    List Nat → Except StoreError (List Ccn × CcnStore)
  | [] => .ok (rv, st)
  | b :: rest => do
    let (_, st') ← st.ensureBucketLoaded b
    fetchGo st' (rv ++ (st'.buckets b).getD []) rest

/-- `CcnStore::fetch_buckets`; `now` is the current bucket, `ts` the
requested timestamp in unix seconds. -/
def CcnStore.fetchBuckets (st : CcnStore) (now ts : Nat) :
    Except StoreError (List Ccn × CcnStore) :=
  let bucketStart := ts / 3600
  if bucketStart > now then .ok ([], st)
  else if now - bucketStart > 24 * DAYS_WINDOW then .error .rangeTooLarge
  else fetchGo st [] (List.range' bucketStart (now + 1 - bucketStart))

/-- The membership walk of `has_ccn` over a list of bucket indices. -/
def hasCcnGo (st : CcnStore) (c : Ccn) :
    List Nat → Except StoreError (Bool × CcnStore)
  | [] => .ok (false, st)
  | b :: rest => do
    let (_, st') ← st.ensureBucketLoaded b
    if c ∈ (st'.buckets b).getD [] then .ok (true, st')
    else hasCcnGo st' c rest

/-- The u64 modulus. -/
def U64 : Nat := 18446744073709551616

/-- Wrapping u64 subtraction, as `now - DAYS_WINDOW` behaves in release
builds when `now < DAYS_WINDOW`. -/
def wrapSub (a b : Nat) : Nat := (a + U64 - b) % U64

/-- The bucket indices `has_ccn` scans: `(now - DAYS_WINDOW)..now`. -/
def hasCcnWindow (now : Nat) : List Nat :=
  List.range' (wrapSub now DAYS_WINDOW) (now - wrapSub now DAYS_WINDOW)

/-- `CcnStore::has_ccn`. -/
def CcnStore.hasCcn (st : CcnStore) (now : Nat) (c : Ccn) :
    Except StoreError (Bool × CcnStore) :=
  hasCcnGo st c (hasCcnWindow now)

/-- `CcnStore::add_ccn`. -/
def CcnStore.addCcn (st : CcnStore) (now : Nat) (c : Ccn) :
    Except StoreError (Bool × CcnStore) := do
  let (dup, st1) ← st.hasCcn now c
  if dup then .ok (false, st1)
  else
    .ok (true,
      { files := updateFn st1.files now
          (some ((st1.files now).getD [] ++ ccnRecord c)),
        buckets := updateFn st1.buckets now
          (some (ccnInsert c ((st1.buckets now).getD []))) })

/-! ### The check route (src/server.rs) -/

/-- The `check` route's matching query: for each active code, its first 14
successor codes; for each, its first 1440 identifiers; `true` on the first
one contained in the caller's observed set. -/
def checkQuery (contacts : List Tcn) (active : List Ccn) : Bool :=
  active.any fun ccn0 =>
    ((List.range 14).map ccn0.generateCcns).any fun ccn =>
      ((List.range 1440).map ccn.generateTcns).any fun tcn =>
        contacts.contains tcn

/-! ### Chain and window lemmas -/

theorem genCcnsFrom_eq (cur : Ccn) (n : Nat) :
    genCcnsFrom cur n = Ccn.ratchet^[n] cur := by
  induction n generalizing cur with
  | zero => rfl
  | succ n ih =>
    show genCcnsFrom cur.ratchet n = _
    rw [ih, Function.iterate_succ_apply]

theorem beBytes_length (ws : List Nat) : (beBytes ws).length = 4 * ws.length := by
  induction ws with
  | nil => rfl
  | cons w rest ih => simp only [beBytes, List.flatMap_cons] at ih ⊢; simp [ih]; omega

theorem shaBlock_length (hs : List Nat) (b : Bytes) : (shaBlock hs b).length = 8 := rfl

theorem sha256_length (msg : Bytes) : (sha256 msg).length = 32 := by
  unfold sha256
  rw [beBytes_length]
  have h : ∀ (l : List Bytes) (hs : List Nat), hs.length = 8 →
      (l.foldl shaBlock hs).length = 8 := by
    intro l
    induction l with
    | nil => intro hs h; exact h
    | cons b rest ih => intro hs h; exact ih _ (shaBlock_length hs b)
  rw [h _ shaH0 rfl]

/-- Claim C6: `ratchet` is the SHA-256 digest (32 bytes) of the code's 32
bytes, and the n-th element of the chain yielded by `generate_ccns` is
`ratchet` applied (n+1) times to the root code. -/
theorem c6_ratchet_chain (c : Ccn) (n : Nat) :
    (Ccn.ratchet c).bytes = sha256 c.bytes ∧
    (Ccn.ratchet c).bytes.length = 32 ∧
    Ccn.generateCcns c n = Ccn.ratchet^[n + 1] c := by
  refine ⟨rfl, sha256_length c.bytes, ?_⟩
  show genCcnsFrom c.ratchet n = _
  rw [genCcnsFrom_eq, ← Function.iterate_succ_apply]

/-- Claim C10: the scan-window start of `has_ccn` is the unguarded u64
subtraction `current_bucket - DAYS_WINDOW`; whenever the current bucket
index is at least 21 the subtraction does not wrap and the scanned window
is exactly the 21 buckets [now - 21, now), which excludes `now` itself. -/
theorem c10_has_ccn_window (now : Nat) (h21 : 21 ≤ now) (hU : now < U64) :
    wrapSub now DAYS_WINDOW = now - 21 ∧
    hasCcnWindow now = List.range' (now - 21) 21 ∧
    (hasCcnWindow now).length = 21 ∧
    now ∉ hasCcnWindow now := by
  have hw : wrapSub now DAYS_WINDOW = now - 21 := by
    unfold wrapSub U64 DAYS_WINDOW
    unfold U64 at hU
    omega
  have hwin : hasCcnWindow now = List.range' (now - 21) 21 := by
    unfold hasCcnWindow
    rw [hw]
    have h2 : now - (now - 21) = 21 := by omega
    rw [h2]
  refine ⟨hw, hwin, by rw [hwin]; simp, ?_⟩
  rw [hwin]
  intro hmem
  rw [List.mem_range'] at hmem
  omega

/-- Claim C10 witness at a concrete current bucket. -/
theorem c10_has_ccn_window_witness :
    wrapSub 100 DAYS_WINDOW = 79 ∧
    hasCcnWindow 100 = List.range' 79 21 ∧
    (hasCcnWindow 100).length = 21 ∧
    100 ∉ hasCcnWindow 100 :=
  c10_has_ccn_window 100 (by norm_num) (by norm_num [U64])

theorem checkQuery_iff (contacts : List Tcn) (active : List Ccn) :
    checkQuery contacts active = true ↔
      ∃ c ∈ active, ∃ k < 14, ∃ m < 1440,
        (c.generateCcns k).generateTcns m ∈ contacts := by
  simp [checkQuery]

/-- Claim C2: the check returns true iff some observed identifier occurs
among the first 1440 identifiers of one of the first 14 successor codes of
an active code; an empty or fully-disjoint observed set yields false. -/
theorem c2_check_semantics (contacts : List Tcn) (active : List Ccn) :
    (checkQuery contacts active = true ↔
      ∃ c ∈ active, ∃ k < 14, ∃ m < 1440,
        (c.generateCcns k).generateTcns m ∈ contacts) ∧
    checkQuery [] active = false ∧
    ((∀ c ∈ active, ∀ k < 14, ∀ m < 1440,
        (c.generateCcns k).generateTcns m ∉ contacts) →
      checkQuery contacts active = false) := by
  refine ⟨checkQuery_iff contacts active, ?_, ?_⟩
  · rw [Bool.eq_false_iff]
    intro h
    obtain ⟨c, _, k, _, m, _, hmem⟩ := (checkQuery_iff [] active).mp h
    simp at hmem
  · intro hdisj
    rw [Bool.eq_false_iff]
    intro h
    obtain ⟨c, hc, k, hk, m, hm, hmem⟩ := (checkQuery_iff contacts active).mp h
    exact hdisj c hc k hk m hm hmem

/-- Claim C2 witness: a singleton observed set holding the first identifier
of the first successor of a concrete code makes the check return true. -/
theorem c2_check_semantics_witness :
    checkQuery [((⟨List.replicate 32 120⟩ : Ccn).generateCcns 0).generateTcns 0]
      [⟨List.replicate 32 120⟩] = true :=
  (c2_check_semantics _ _).1.mpr
    ⟨⟨List.replicate 32 120⟩, by simp, 0, by norm_num, 0, by norm_num, by simp⟩

theorem string_mk_length (l : List Char) : (String.mk l).length = l.length := rfl

/-- Claim C7: for every valid 32-byte sequence, parsing the 43-character
URL-safe unpadded base64 encoding of the constructed `Ccn` returns the
same value; likewise 16-byte sequences and 22-character `Tcn` encodings. -/
theorem c7_text_roundtrip :
    (∀ (b : Bytes) (c : Ccn), b.length = 32 → (∀ x ∈ b, x < 256) →
      Ccn.fromBytes b = some c →
      c.display.length = 43 ∧ Ccn.fromStr c.display = some c) ∧
    (∀ (b : Bytes) (t : Tcn), b.length = 16 → (∀ x ∈ b, x < 256) →
      Tcn.fromBytes b = some t →
      t.display.length = 22 ∧ Tcn.fromStr t.display = some t) := by
  constructor
  · intro b c hlen hbytes hfb
    have hc : c = ⟨b⟩ := by
      unfold Ccn.fromBytes at hfb
      rw [if_pos hlen] at hfb
      exact (Option.some.inj hfb).symm
    subst hc
    have hdlen : (Ccn.display ⟨b⟩).length = 43 := by
      show (String.mk (b64Encode b)).length = 43
      rw [string_mk_length, b64Encode_length, hlen]
    refine ⟨hdlen, ?_⟩
    unfold Ccn.fromStr
    rw [if_pos hdlen]
    show (b64Decode (b64Encode b)).bind Ccn.fromBytes = _
    rw [b64Decode_b64Encode b hbytes]
    show Ccn.fromBytes b = _
    unfold Ccn.fromBytes
    rw [if_pos hlen]
  · intro b t hlen hbytes hfb
    have ht : t = ⟨b⟩ := by
      unfold Tcn.fromBytes at hfb
      rw [if_pos hlen] at hfb
      exact (Option.some.inj hfb).symm
    subst ht
    have hdlen : (Tcn.display ⟨b⟩).length = 22 := by
      show (String.mk (b64Encode b)).length = 22
      rw [string_mk_length, b64Encode_length, hlen]
    refine ⟨hdlen, ?_⟩
    unfold Tcn.fromStr
    rw [if_pos hdlen]
    show (b64Decode (b64Encode b)).bind Tcn.fromBytes = _
    rw [b64Decode_b64Encode b hbytes]
    show Tcn.fromBytes b = _
    unfold Tcn.fromBytes
    rw [if_pos hlen]

/-- Claim C7 witness at concrete byte sequences. -/
theorem c7_text_roundtrip_witness :
    Ccn.fromStr (Ccn.display ⟨List.replicate 32 0⟩) = some ⟨List.replicate 32 0⟩ ∧
    Tcn.fromStr (Tcn.display ⟨List.replicate 16 0⟩) = some ⟨List.replicate 16 0⟩ :=
  ⟨(c7_text_roundtrip.1 (List.replicate 32 0) ⟨List.replicate 32 0⟩ (by simp)
      (by simp) (by decide)).2,
   (c7_text_roundtrip.2 (List.replicate 16 0) ⟨List.replicate 16 0⟩ (by simp)
      (by simp) (by decide)).2⟩

/-- Claim C8: the all-'x' root code ratchets to the code with the given
text encoding, and that code's identifier stream (HMAC-SHA256 under the
fixed protocol key, then AES-256 output feedback from the zero block)
starts with the three given identifiers in order. -/
theorem c8_interop_vector :
    (Ccn.ratchet ⟨List.replicate 32 120⟩).display =
      "xi5GFb054iJXLzob98ITLqHmWxfsgFBHvWsoQsWTST8" ∧
    ((Ccn.ratchet ⟨List.replicate 32 120⟩).generateTcns 0).display =
      "lCwTulzwiY0kYMjLXsZ73Q" ∧
    ((Ccn.ratchet ⟨List.replicate 32 120⟩).generateTcns 1).display =
      "SK3F0EX9piiOphM5a_d0-g" ∧
    ((Ccn.ratchet ⟨List.replicate 32 120⟩).generateTcns 2).display =
      "hX5kfy51PnOsQGWEmliaAw" :=
  ⟨by decide, by decide, by decide, by decide⟩

/-! ### Store lemmas -/

/-- The codes a bucket holds from the store's point of view: the cached
set if loaded, otherwise what its backing file parses to. -/
def CcnStore.bucketCodes (st : CcnStore) (b : Nat) : List Ccn :=
  match st.buckets b with
  | some s => s
  | none =>
    match st.files b with
    | none => []
    | some content => (loadRecords content).toOption.getD []

/-- A bucket that `ensure_bucket_loaded` can load without error: if it is
uncached and has a backing file, that file parses. -/
def CcnStore.loadable (st : CcnStore) (b : Nat) : Prop :=
  ∀ content, st.buckets b = none → st.files b = some content →
    ∃ s, loadRecords content = .ok s

theorem opened_loadable (b : Nat) : CcnStore.opened.loadable b := by
  intro content _ hf
  exact absurd hf (by simp [CcnStore.opened])

theorem except_ok_bind {ε α β : Type} (a : α) (f : α → Except ε β) :
    (Except.ok a >>= f) = f a := rfl

theorem except_error_bind {ε α β : Type} (e : ε) (f : α → Except ε β) :
    ((Except.error e : Except ε α) >>= f) = Except.error e := rfl

theorem ensure_ok_spec (st : CcnStore) (b : Nat) (fl : Bool) (st' : CcnStore)
    (h : st.ensureBucketLoaded b = .ok (fl, st')) :
    st'.files = st.files ∧
    st'.buckets b = some (st.bucketCodes b) ∧
    (∀ b', b' ≠ b → st'.buckets b' = st.buckets b') ∧
    (∀ b', st'.bucketCodes b' = st.bucketCodes b') ∧
    (∀ b', st.loadable b' → st'.loadable b') := by
  unfold CcnStore.ensureBucketLoaded at h
  split at h
  case h_1 s hb =>
    simp only [Except.ok.injEq, Prod.mk.injEq] at h
    obtain ⟨-, rfl⟩ := h
    refine ⟨rfl, ?_, fun _ _ => rfl, fun _ => rfl, fun _ h => h⟩
    simp [CcnStore.bucketCodes, hb]
  case h_2 hb =>
    split at h
    case h_1 hf =>
      simp only [Except.ok.injEq, Prod.mk.injEq] at h
      obtain ⟨-, rfl⟩ := h
      refine ⟨rfl, ?_, ?_, ?_, ?_⟩
      · simp [CcnStore.bucketCodes, updateFn, hb, hf]
      · intro b' hne
        simp [updateFn, hne]
      · intro b'
        by_cases hbe : b' = b
        · subst hbe
          simp [CcnStore.bucketCodes, updateFn, hb, hf]
        · simp [CcnStore.bucketCodes, updateFn, hbe]
      · intro b' hlb
        intro content hbk hfl
        by_cases hbe : b' = b
        · subst hbe
          simp [updateFn] at hbk
        · simp only [updateFn, if_neg hbe] at hbk
          exact hlb content hbk hfl
    case h_2 content hf =>
      cases hl : loadRecords content with
      | error e => rw [hl, except_error_bind] at h; exact absurd h (by simp)
      | ok s =>
        rw [hl, except_ok_bind] at h
        simp only [Except.ok.injEq, Prod.mk.injEq] at h
        obtain ⟨-, rfl⟩ := h
        refine ⟨rfl, ?_, ?_, ?_, ?_⟩
        · simp [CcnStore.bucketCodes, updateFn, hb, hf, hl, Except.toOption]
        · intro b' hne
          simp [updateFn, hne]
        · intro b'
          by_cases hbe : b' = b
          · subst hbe
            simp [CcnStore.bucketCodes, updateFn, hb, hf, hl, Except.toOption]
          · simp [CcnStore.bucketCodes, updateFn, hbe]
        · intro b' hlb
          intro c2 hbk hfl
          by_cases hbe : b' = b
          · subst hbe
            simp [updateFn] at hbk
          · simp only [updateFn, if_neg hbe] at hbk
            exact hlb c2 hbk hfl

theorem ensure_ok_of_loadable (st : CcnStore) (b : Nat) (h : st.loadable b) :
    ∃ fl st', st.ensureBucketLoaded b = .ok (fl, st') := by
  unfold CcnStore.ensureBucketLoaded
  split
  · exact ⟨false, st, rfl⟩
  case h_2 hb =>
    split
    · exact ⟨true, _, rfl⟩
    case h_2 content hf =>
      obtain ⟨s, hs⟩ := h content hb hf
      exact ⟨true, _, by rw [hs, except_ok_bind]⟩


theorem fetchGo_ok_spec (l : List Nat) : ∀ (st : CcnStore) (rv rv' : List Ccn)
    (st' : CcnStore), fetchGo st rv l = .ok (rv', st') →
    rv' = rv ++ (l.map st.bucketCodes).flatten ∧ st'.files = st.files ∧
    (∀ b, st'.bucketCodes b = st.bucketCodes b) := by
  induction l with
  | nil =>
    intro st rv rv' st' h
    simp only [fetchGo, Except.ok.injEq, Prod.mk.injEq] at h
    obtain ⟨rfl, rfl⟩ := h
    simp
  | cons b rest ih =>
    intro st rv rv' st' h
    unfold fetchGo at h
    cases he : st.ensureBucketLoaded b with
    | error e => rw [he, except_error_bind] at h; exact absurd h (by simp)
    | ok r =>
      obtain ⟨fl, st1⟩ := r
      rw [he, except_ok_bind] at h
      obtain ⟨hfiles, hcache, -, hcodes, -⟩ := ensure_ok_spec st b fl st1 he
      obtain ⟨hrv, hfiles', hcodes'⟩ := ih st1 _ rv' st' h
      refine ⟨?_, by rw [hfiles', hfiles], fun b' => by rw [hcodes' b', hcodes b']⟩
      rw [hrv, hcache]
      simp only [Option.getD_some]
      rw [List.map_congr_left (fun x _ => hcodes x), List.map_cons, List.flatten_cons,
        List.append_assoc]

theorem fetchGo_ok_of_loadable (l : List Nat) : ∀ (st : CcnStore) (rv : List Ccn),
    (∀ b ∈ l, st.loadable b) → ∃ rv' st', fetchGo st rv l = .ok (rv', st') := by
  induction l with
  | nil => intro st rv _; exact ⟨rv, st, rfl⟩
  | cons b rest ih =>
    intro st rv hl
    obtain ⟨fl, st1, he⟩ := ensure_ok_of_loadable st b (hl b (by simp))
    obtain ⟨-, -, -, -, hpres⟩ := ensure_ok_spec st b fl st1 he
    obtain ⟨rv', st', hrest⟩ := ih st1 (rv ++ (st1.buckets b).getD [])
      (fun x hx => hpres x (hl x (by simp [hx])))
    exact ⟨rv', st', by unfold fetchGo; rw [he, except_ok_bind]; exact hrest⟩

/-- Claim C3: with start = ts/3600 and end the current bucket, a future
timestamp gives an empty result without error; a span over 504 hours fails
with the range error; otherwise (provided every bucket in range loads
cleanly) the call succeeds and its result is the union of the codes of
every bucket in [start, end]. -/
theorem c3_fetch_range (st : CcnStore) (now ts : Nat) :
    (ts / 3600 > now → st.fetchBuckets now ts = .ok ([], st)) ∧
    (ts / 3600 ≤ now → now - ts / 3600 > 504 →
      st.fetchBuckets now ts = .error .rangeTooLarge) ∧
    (ts / 3600 ≤ now → now - ts / 3600 ≤ 504 →
      (∀ b, ts / 3600 ≤ b → b ≤ now → st.loadable b) →
      ∃ rv st', st.fetchBuckets now ts = .ok (rv, st') ∧
        ∀ c : Ccn, c ∈ rv ↔ ∃ b, ts / 3600 ≤ b ∧ b ≤ now ∧ c ∈ st.bucketCodes b) := by
  refine ⟨?_, ?_, ?_⟩
  · intro h
    unfold CcnStore.fetchBuckets
    rw [if_pos h]
  · intro h1 h2
    unfold CcnStore.fetchBuckets
    rw [if_neg (by omega), if_pos (by simp only [DAYS_WINDOW]; omega)]
  · intro h1 h2 hload
    have hmem : ∀ b ∈ List.range' (ts / 3600) (now + 1 - ts / 3600),
        ts / 3600 ≤ b ∧ b ≤ now := by
      intro b hb
      rw [List.mem_range'] at hb
      omega
    obtain ⟨rv, st', hfetch⟩ := fetchGo_ok_of_loadable _ st []
      (fun b hb => hload b (hmem b hb).1 (hmem b hb).2)
    refine ⟨rv, st', ?_, ?_⟩
    · unfold CcnStore.fetchBuckets
      rw [if_neg (by omega), if_neg (by simp only [DAYS_WINDOW]; omega)]
      exact hfetch
    · obtain ⟨hrv, -, -⟩ := fetchGo_ok_spec _ st [] rv st' hfetch
      intro c
      rw [hrv]
      simp only [List.nil_append, List.mem_flatten, List.mem_map]
      constructor
      · rintro ⟨l, ⟨b, hb, rfl⟩, hc⟩
        exact ⟨b, (hmem b hb).1, (hmem b hb).2, hc⟩
      · rintro ⟨b, hb1, hb2, hc⟩
        refine ⟨st.bucketCodes b, ⟨b, ?_, rfl⟩, hc⟩
        rw [List.mem_range']
        exact ⟨b - ts / 3600, by omega, by omega⟩

/-- Claim C9, amended: the fetched list counts each code once per bucket
of the requested range whose loaded code set contains it, so a code kept
in several buckets of the range is returned once for each. -/
theorem c9_fetch_multiplicity (st : CcnStore) (now ts : Nat) (c : Ccn) (n : Nat)
    (h : (st.fetchBuckets now ts).map (fun r => r.1.count c) = .ok n) :
    n = ((List.range' (ts / 3600) (now + 1 - ts / 3600)).map
      (fun b => (st.bucketCodes b).count c)).sum := by
  unfold CcnStore.fetchBuckets at h
  by_cases h1 : ts / 3600 > now
  · rw [if_pos h1] at h
    simp only [Except.map, List.count_nil, Except.ok.injEq] at h
    have : now + 1 - ts / 3600 = 0 := by omega
    rw [this]
    simpa using h.symm
  · rw [if_neg h1] at h
    by_cases h2 : now - ts / 3600 > 24 * DAYS_WINDOW
    · rw [if_pos h2] at h
      exact absurd h (by simp [Except.map])
    · rw [if_neg h2] at h
      cases hf : fetchGo st [] (List.range' (ts / 3600) (now + 1 - ts / 3600)) with
      | error e => rw [hf] at h; exact absurd h (by simp [Except.map])
      | ok r =>
        obtain ⟨rv, st'⟩ := r
        rw [hf] at h
        simp only [Except.map, Except.ok.injEq] at h
        obtain ⟨hrv, -, -⟩ := fetchGo_ok_spec _ st [] rv st' hf
        subst h
        rw [hrv]
        simp [List.count_flatten, List.map_map, Function.comp_def]


theorem hasCcnWindow_lt (now : Nat) : ∀ x ∈ hasCcnWindow now, x < now := by
  intro x hx
  unfold hasCcnWindow at hx
  rw [List.mem_range'] at hx
  obtain ⟨i, hi, rfl⟩ := hx
  omega

theorem hasCcnGo_spec (c : Ccn) (l : List Nat) : ∀ (st : CcnStore),
    (∀ b ∈ l, st.loadable b) →
    ∃ st', hasCcnGo st c l =
        .ok (l.any (fun b => decide (c ∈ st.bucketCodes b)), st') ∧
      st'.files = st.files ∧
      (∀ b, st'.bucketCodes b = st.bucketCodes b) ∧
      (∀ b, st.loadable b → st'.loadable b) ∧
      (∀ b, b ∉ l → st'.buckets b = st.buckets b) := by
  induction l with
  | nil =>
    intro st _
    exact ⟨st, rfl, rfl, fun _ => rfl, fun _ h => h, fun _ _ => rfl⟩
  | cons b rest ih =>
    intro st hl
    obtain ⟨fl, st1, he⟩ := ensure_ok_of_loadable st b (hl b (by simp))
    obtain ⟨hfiles, hcache, hother, hcodes, hpres⟩ := ensure_ok_spec st b fl st1 he
    by_cases hmem : c ∈ st.bucketCodes b
    · refine ⟨st1, ?_, hfiles, hcodes, hpres, ?_⟩
      · unfold hasCcnGo
        rw [he, except_ok_bind]
        simp only [hcache, Option.getD_some]
        rw [if_pos hmem]
        simp [hmem]
      · intro x hx
        exact hother x (fun hxe => hx (hxe ▸ List.mem_cons_self b rest))
    · obtain ⟨st', hgo, hfiles', hcodes', hpres', hbuckets'⟩ :=
        ih st1 (fun x hx => hpres x (hl x (by simp [hx])))
      refine ⟨st', ?_, by rw [hfiles', hfiles], fun x => by rw [hcodes' x, hcodes x],
        fun x hx => hpres' x (hpres x hx), ?_⟩
      · unfold hasCcnGo
        rw [he, except_ok_bind]
        simp only [hcache, Option.getD_some]
        rw [if_neg hmem]
        rw [hgo]
        have hfun : (fun x => decide (c ∈ st1.bucketCodes x)) =
            (fun x => decide (c ∈ st.bucketCodes x)) :=
          funext fun x => by rw [hcodes x]
        rw [hfun]
        simp [hmem]
      · intro x hx
        rw [hbuckets' x (fun hxr => hx (List.mem_cons_of_mem b hxr)),
          hother x (fun hxe => hx (hxe ▸ List.mem_cons_self b rest))]

theorem bucketCodes_congr (st st' : CcnStore) (b : Nat)
    (h1 : st'.buckets b = st.buckets b) (h2 : st'.files b = st.files b) :
    st'.bucketCodes b = st.bucketCodes b := by
  unfold CcnStore.bucketCodes
  rw [h1, h2]

theorem addCcn_new (st : CcnStore) (now : Nat) (c : Ccn)
    (hl : ∀ b ∈ hasCcnWindow now, st.loadable b)
    (hnot : ∀ b ∈ hasCcnWindow now, c ∉ st.bucketCodes b) :
    ∃ st', st.addCcn now c = .ok (true, st') ∧
      st'.files now = some ((st.files now).getD [] ++ ccnRecord c) ∧
      (∀ b, b ≠ now → st'.files b = st.files b) ∧
      st'.buckets now = some (ccnInsert c ((st.buckets now).getD [])) ∧
      (∀ b, b ≠ now → st'.bucketCodes b = st.bucketCodes b) ∧
      (∀ b, st.loadable b → st'.loadable b) := by
  obtain ⟨st1, hgo, hfiles, hcodes, hpres, hbuckets⟩ := hasCcnGo_spec c _ st hl
  have hany : ((hasCcnWindow now).any fun b => decide (c ∈ st.bucketCodes b)) = false := by
    rw [List.any_eq_false]
    intro b hb
    simpa using hnot b hb
  have hnow : now ∉ hasCcnWindow now := fun hmem =>
    absurd (hasCcnWindow_lt now now hmem) (by omega)
  refine ⟨⟨updateFn st1.files now (some ((st1.files now).getD [] ++ ccnRecord c)),
      updateFn st1.buckets now (some (ccnInsert c ((st1.buckets now).getD [])))⟩,
    ?_, ?_, ?_, ?_, ?_, ?_⟩
  · unfold CcnStore.addCcn CcnStore.hasCcn
    rw [hgo, hany, except_ok_bind]
    simp only [Bool.false_eq_true, if_false]
  · show updateFn st1.files now _ now = _
    rw [updateFn, if_pos rfl, hfiles]
  · intro b hb
    show updateFn st1.files now _ b = _
    rw [updateFn, if_neg hb, hfiles]
  · show updateFn st1.buckets now _ now = _
    rw [updateFn, if_pos rfl, hbuckets now hnow]
  · intro b hb
    refine Eq.trans (bucketCodes_congr st1 _ b ?_ ?_) (hcodes b)
    · show updateFn st1.buckets now _ b = _
      rw [updateFn, if_neg hb]
    · show updateFn st1.files now _ b = _
      rw [updateFn, if_neg hb]
  · intro b hlb content hbk hfl
    by_cases hb : b = now
    · subst hb
      simp [updateFn] at hbk
    · simp only [updateFn, if_neg hb] at hbk hfl
      exact hpres b hlb content hbk hfl

theorem addCcn_dup (st : CcnStore) (now : Nat) (c : Ccn)
    (hl : ∀ b ∈ hasCcnWindow now, st.loadable b)
    (hfound : ∃ b ∈ hasCcnWindow now, c ∈ st.bucketCodes b) :
    ∃ st', st.addCcn now c = .ok (false, st') ∧
      st'.files = st.files ∧
      (∀ b, st'.bucketCodes b = st.bucketCodes b) := by
  obtain ⟨st1, hgo, hfiles, hcodes, -, -⟩ := hasCcnGo_spec c _ st hl
  have hany : ((hasCcnWindow now).any fun b => decide (c ∈ st.bucketCodes b)) = true := by
    rw [List.any_eq_true]
    obtain ⟨b, hb, hc⟩ := hfound
    exact ⟨b, hb, by simpa using hc⟩
  refine ⟨st1, ?_, hfiles, hcodes⟩
  unfold CcnStore.addCcn CcnStore.hasCcn
  rw [hgo, hany, except_ok_bind]
  simp only [if_true]


theorem hasCcnWindow_eq (now : Nat) (h21 : 21 ≤ now) (hU : now < U64) :
    hasCcnWindow now = List.range' (now - 21) 21 := by
  unfold hasCcnWindow
  have hw : wrapSub now DAYS_WINDOW = now - 21 := by
    unfold wrapSub U64 DAYS_WINDOW
    unfold U64 at hU
    omega
  rw [hw]
  have h2 : now - (now - 21) = 21 := by omega
  rw [h2]

theorem opened_bucketCodes (b : Nat) : CcnStore.opened.bucketCodes b = [] := rfl

/-- Claim C1, amended: dedup across distinct buckets. The first submission
returns true and writes one record; a second submission of the same code at
a strictly later current bucket at most `DAYS_WINDOW` buckets on — the
later bucket index being at least `DAYS_WINDOW`, so its wrapped u64 scan
window is well-formed — returns false and leaves the single record in
place. (Two submissions in the same bucket both return true, because
`has_ccn` excludes the current bucket; below bucket 21 the wrapped window
is empty and resubmission is likewise not detected.) -/
theorem c1_dedup_amended (c : Ccn) (n1 n2 : Nat)
    (h1 : 21 ≤ n2) (h2 : n1 < n2) (h3 : n2 ≤ n1 + 21) (hU : n2 < U64) :
    ∃ st1 st2, CcnStore.opened.addCcn n1 c = .ok (true, st1) ∧
      st1.files n1 = some (ccnRecord c) ∧
      st1.addCcn n2 c = .ok (false, st2) ∧
      st2.files n1 = some (ccnRecord c) ∧
      (∀ b, b ≠ n1 → st2.files b = none) := by
  obtain ⟨st1, hadd1, hf1, hfo1, hb1, hc1, hl1⟩ :=
    addCcn_new CcnStore.opened n1 c (fun b _ => opened_loadable b)
      (fun b _ => by rw [opened_bucketCodes]; exact List.not_mem_nil c)
  have hfiles1 : st1.files n1 = some (ccnRecord c) := by
    simpa [CcnStore.opened] using hf1
  have hwin : n1 ∈ hasCcnWindow n2 := by
    rw [hasCcnWindow_eq n2 (by omega) hU, List.mem_range']
    exact ⟨n1 - (n2 - 21), by omega, by omega⟩
  have hcodes1 : c ∈ st1.bucketCodes n1 := by
    unfold CcnStore.bucketCodes
    rw [hb1]
    simp [CcnStore.opened, ccnInsert]
  obtain ⟨st2, hadd2, hfiles2, -⟩ := addCcn_dup st1 n2 c
    (fun b _ => hl1 b (opened_loadable b)) ⟨n1, hwin, hcodes1⟩
  refine ⟨st1, st2, hadd1, hfiles1, hadd2, ?_, ?_⟩
  · rw [hfiles2, hfiles1]
  · intro b hb
    rw [hfiles2, hfo1 b hb]
    rfl


theorem chunksOfGo_norm (sz : Nat) (hsz : 0 < sz) :
    ∀ f (l : Bytes), l.length ≤ f → chunksOfGo sz f l = chunksOf sz l := by
  intro f
  induction f using Nat.strong_induction_on with
  | _ f ih =>
    intro l hl
    cases f with
    | zero =>
      have : l = [] := List.eq_nil_of_length_eq_zero (by omega)
      subst this
      rfl
    | succ n =>
      cases l with
      | nil => simp [chunksOfGo, chunksOf]
      | cons a t =>
        show chunksOfGo sz (n + 1) (a :: t) = chunksOf sz (a :: t)
        unfold chunksOf
        show chunksOfGo sz (n + 1) (a :: t) = chunksOfGo sz (t.length + 1) (a :: t)
        unfold chunksOfGo
        rw [if_neg (by simp), if_neg (by simp)]
        congr 1
        have hdl : ((a :: t).drop sz).length = t.length + 1 - sz := by
          rw [List.length_drop]
          simp
        have hl2 : t.length + 1 ≤ n + 1 := by simpa using hl
        rw [ih n (by omega) _ (by rw [hdl]; omega),
          ih t.length (by omega) _ (by rw [hdl]; omega)]

theorem chunksOf_cons (sz : Nat) (hsz : 0 < sz) (l : Bytes) (hne : l ≠ []) :
    chunksOf sz l = l.take sz :: chunksOf sz (l.drop sz) := by
  cases l with
  | nil => exact absurd rfl hne
  | cons a t =>
    show chunksOfGo sz (t.length + 1) (a :: t) = _
    unfold chunksOfGo
    rw [if_neg (by simp)]
    congr 1
    exact chunksOfGo_norm sz hsz t.length ((a :: t).drop sz)
      (by rw [List.length_drop]; simp; omega)

theorem ccnRecord_length (c : Ccn) (hwf : c.wf) : (ccnRecord c).length = 36 := by
  unfold ccnRecord
  rw [List.length_append, u32le_length, hwf.1]

theorem foldl_ccnInsert_mem (cs : List Ccn) :
    ∀ (acc : List Ccn) (x : Ccn),
      x ∈ cs.foldl (fun s c => ccnInsert c s) acc ↔ x ∈ acc ∨ x ∈ cs := by
  induction cs with
  | nil => intro acc x; simp
  | cons c rest ih =>
    intro acc x
    rw [List.foldl_cons, ih]
    unfold ccnInsert
    by_cases hc : c ∈ acc
    · rw [if_pos hc]
      constructor
      · rintro (h | h)
        · exact Or.inl h
        · exact Or.inr (List.mem_cons_of_mem c h)
      · rintro (h | h)
        · exact Or.inl h
        · rcases List.mem_cons.mp h with rfl | h
          · exact Or.inl hc
          · exact Or.inr h
    · rw [if_neg hc]
      constructor
      · rintro (h | h)
        · rcases List.mem_cons.mp h with rfl | h
          · exact Or.inr (List.mem_cons_self x rest)
          · exact Or.inl h
        · exact Or.inr (List.mem_cons_of_mem c h)
      · rintro (h | h)
        · exact Or.inl (List.mem_cons_of_mem c h)
        · rcases List.mem_cons.mp h with rfl | h
          · exact Or.inl (List.mem_cons_self x acc)
          · exact Or.inr h

theorem loadChunk_record (c : Ccn) (hwf : c.wf) (acc : List Ccn) :
    loadChunk (.ok acc) (ccnRecord c) = .ok (ccnInsert c acc) := by
  unfold loadChunk ccnRecord
  rw [except_ok_bind]
  rw [if_neg (by rw [← ccnRecord, ccnRecord_length c hwf]; omega)]
  have ht4 : (u32le (crc32 c.bytes) ++ c.bytes).take 4 = u32le (crc32 c.bytes) := by
    rw [List.take_append_of_le_length (by rw [u32le_length]),
      List.take_of_length_le (by rw [u32le_length])]
  have hd4 : (u32le (crc32 c.bytes) ++ c.bytes).drop 4 = c.bytes := by
    rw [List.drop_append_of_le_length (by rw [u32le_length])]
    simp [u32le]
  have ht32 : c.bytes.take 32 = c.bytes := List.take_of_length_le (by rw [hwf.1])
  rw [ht4, hd4, ht32, leU32_u32le (crc32_lt c.bytes hwf.2), if_pos rfl]

theorem loadRecords_flatMap (cs : List Ccn) (hwf : ∀ c ∈ cs, c.wf) :
    ∀ acc, (chunksOf 36 (cs.flatMap ccnRecord)).foldl loadChunk (.ok acc) =
      .ok (cs.foldl (fun s c => ccnInsert c s) acc) := by
  induction cs with
  | nil => intro acc; rfl
  | cons c rest ih =>
    intro acc
    have hwfc : c.wf := hwf c (by simp)
    have hr36 : (ccnRecord c).length = 36 := ccnRecord_length c hwfc
    rw [List.flatMap_cons]
    have hne : ccnRecord c ++ rest.flatMap ccnRecord ≠ [] := by
      intro h
      have := congrArg List.length h
      rw [List.length_append, hr36] at this
      simp at this
    rw [chunksOf_cons 36 (by norm_num) _ hne,
      List.take_append_of_le_length (by omega),
      List.take_of_length_le (by omega),
      List.drop_append_of_le_length (by omega)]
    have hdrop : (ccnRecord c).drop 36 = [] := by
      rw [List.drop_eq_nil_iff]
      omega
    rw [hdrop, List.nil_append, List.foldl_cons, loadChunk_record c hwfc acc]
    exact ih (fun x hx => hwf x (by simp [hx])) (ccnInsert c acc)

/-- Sequential submission of a list of codes at a fixed current bucket. -/
def addAll (st : CcnStore) (now : Nat) : List Ccn → Except StoreError CcnStore
  | [] => .ok st
  | c :: rest => do
    let (_, st') ← st.addCcn now c
    addAll st' now rest


theorem addAll_records (now : Nat) (cs : List Ccn) : ∀ (st : CcnStore) (pre : List Ccn),
    (∀ b, st.loadable b) →
    (st.files now).getD [] = pre.flatMap ccnRecord →
    (∀ b, b ≠ now → st.bucketCodes b = []) →
    ∃ stf, addAll st now cs = .ok stf ∧
      (stf.files now).getD [] = (pre ++ cs).flatMap ccnRecord ∧
      (∀ b, b ≠ now → stf.bucketCodes b = []) ∧
      (∀ b, stf.loadable b) := by
  induction cs with
  | nil =>
    intro st pre hload hfile hempty
    exact ⟨st, rfl, by simpa using hfile, hempty, hload⟩
  | cons c rest ih =>
    intro st pre hload hfile hempty
    obtain ⟨st1, hadd, hfn, -, -, hcodes, hpres⟩ := addCcn_new st now c
      (fun b _ => hload b)
      (fun b hb => by
        rw [hempty b (by have := hasCcnWindow_lt now b hb; omega)]
        exact List.not_mem_nil c)
    have hfile1 : (st1.files now).getD [] = (pre ++ [c]).flatMap ccnRecord := by
      rw [hfn, Option.getD_some, hfile]
      simp
    obtain ⟨stf, haddAll, hfilef, hemptyf, hloadf⟩ := ih st1 (pre ++ [c])
      (fun b => hpres b (hload b)) hfile1
      (fun b hb => by rw [hcodes b hb]; exact hempty b hb)
    refine ⟨stf, ?_, by simpa using hfilef, hemptyf, hloadf⟩
    show (st.addCcn now c >>= fun x =>
      match x with | (_, st') => addAll st' now rest) = .ok stf
    rw [hadd, except_ok_bind]
    exact haddAll

/-- Claim C4: every record `add_ccn` appends is 36 bytes, the little-endian
CRC-32 of the payload followed by the 32 payload bytes; appending a list of
distinct codes to one bucket produces the concatenation of their records,
and loading that file on a fresh cache succeeds and yields exactly the set
of appended codes. -/
theorem c4_persistence_roundtrip (cs : List Ccn) (now : Nat)
    (hwf : ∀ c ∈ cs, c.wf) (hdist : List.Pairwise (· ≠ ·) cs) :
    (∀ c ∈ cs, ccnRecord c = u32le (crc32 c.bytes) ++ c.bytes ∧
      (ccnRecord c).length = 36) ∧
    ∃ stf, addAll CcnStore.opened now cs = .ok stf ∧
      (stf.files now).getD [] = cs.flatMap ccnRecord ∧
      ∃ loaded st2,
        (CcnStore.mk stf.files (fun _ => none)).ensureBucketLoaded now =
          .ok (true, st2) ∧
        st2.buckets now = some loaded ∧
        ∀ x : Ccn, x ∈ loaded ↔ x ∈ cs := by
  refine ⟨fun c hc => ⟨rfl, ccnRecord_length c (hwf c hc)⟩, ?_⟩
  obtain ⟨stf, haddAll, hfile, -, -⟩ := addAll_records now cs CcnStore.opened []
    opened_loadable (by simp [CcnStore.opened]) (fun b _ => opened_bucketCodes b)
  have hparse : loadRecords (cs.flatMap ccnRecord) =
      .ok (cs.foldl (fun s c => ccnInsert c s) []) :=
    loadRecords_flatMap cs hwf []
  refine ⟨stf, haddAll, by simpa using hfile, ?_⟩
  rw [List.nil_append] at hfile
  cases hfn : stf.files now with
  | none =>
    rw [hfn, Option.getD_none] at hfile
    have hcs : cs = [] := by
      cases cs with
      | nil => rfl
      | cons c rest =>
        exfalso
        have h36 := ccnRecord_length c (hwf c (by simp))
        have := congrArg List.length hfile
        rw [List.flatMap_cons, List.length_append, h36] at this
        simp only [List.length_nil] at this
        omega
    subst hcs
    refine ⟨[], ⟨stf.files, updateFn (fun _ => none) now (some [])⟩, ?_, ?_, by simp⟩
    · show CcnStore.ensureBucketLoaded _ now = _
      unfold CcnStore.ensureBucketLoaded
      rw [show (CcnStore.mk stf.files (fun _ => none)).buckets now = none from rfl, hfn]
    · show updateFn (fun _ => none) now (some []) now = _
      rw [updateFn, if_pos rfl]
  | some content =>
    rw [hfn, Option.getD_some] at hfile
    subst hfile
    refine ⟨cs.foldl (fun s c => ccnInsert c s) [],
      ⟨stf.files, updateFn (fun _ => none) now
        (some (cs.foldl (fun s c => ccnInsert c s) []))⟩, ?_, ?_, ?_⟩
    · show CcnStore.ensureBucketLoaded _ now = _
      unfold CcnStore.ensureBucketLoaded
      rw [show (CcnStore.mk stf.files (fun _ => none)).buckets now = none from rfl, hfn]
      show (loadRecords (cs.flatMap ccnRecord) >>= fun s => Except.ok (true,
        (⟨stf.files, updateFn (fun _ => none) now (some s)⟩ : CcnStore))) = _
      rw [hparse, except_ok_bind]
    · show updateFn (fun _ => none) now _ now = _
      rw [updateFn, if_pos rfl]
    · intro x
      rw [foldl_ccnInsert_mem cs [] x]
      simp


/-- Index-wise validity of the i-th 36-byte record of a bucket file: the
leading 4-byte little-endian checksum equals the CRC-32 of the 32-byte
payload that follows it. -/
def recordValid (content : Bytes) (i : Nat) : Prop :=
  leU32 ((content.drop (36 * i)).take 4) =
    crc32 (((content.drop (36 * i)).drop 4).take 32)

instance (content : Bytes) (i : Nat) : Decidable (recordValid content i) := by
  unfold recordValid
  infer_instance

theorem foldChunk_error (L : List Bytes) (e : StoreError) :
    L.foldl loadChunk (.error e) = .error e := by
  induction L with
  | nil => rfl
  | cons ch rest ih => rw [List.foldl_cons]; exact ih

theorem loadChunk_short (acc : List Ccn) (ch : Bytes) (h : ch.length < 36) :
    loadChunk (.ok acc) ch = .error .partialRecord := by
  unfold loadChunk
  rw [except_ok_bind, if_pos h]

theorem loadChunk_good (acc : List Ccn) (ch : Bytes) (h1 : ¬ch.length < 36)
    (h2 : leU32 (ch.take 4) = crc32 ((ch.drop 4).take 32)) :
    loadChunk (.ok acc) ch = .ok (ccnInsert ⟨(ch.drop 4).take 32⟩ acc) := by
  unfold loadChunk
  rw [except_ok_bind, if_neg h1, if_pos h2]

theorem loadChunk_bad (acc : List Ccn) (ch : Bytes) (h1 : ¬ch.length < 36)
    (h2 : ¬leU32 (ch.take 4) = crc32 ((ch.drop 4).take 32)) :
    loadChunk (.ok acc) ch = .error .badChecksum := by
  unfold loadChunk
  rw [except_ok_bind, if_neg h1, if_neg h2]

theorem foldChunk_ok_iff (L : List Bytes) : ∀ acc : List Ccn,
    (L.foldl loadChunk (.ok acc)).isOk = true ↔
      ∀ ch ∈ L, 36 ≤ ch.length ∧ leU32 (ch.take 4) = crc32 ((ch.drop 4).take 32) := by
  induction L with
  | nil => intro acc; simp [Except.isOk, Except.toBool]
  | cons ch rest ih =>
    intro acc
    rw [List.foldl_cons, List.forall_mem_cons]
    by_cases h1 : ch.length < 36
    · rw [loadChunk_short acc ch h1, foldChunk_error]
      simp only [Except.isOk]
      constructor
      · intro h; exact absurd h (by simp [Except.toBool])
      · rintro ⟨⟨h, -⟩, -⟩; omega
    · by_cases h2 : leU32 (ch.take 4) = crc32 ((ch.drop 4).take 32)
      · rw [loadChunk_good acc ch h1 h2, ih]
        constructor
        · intro h; exact ⟨⟨by omega, h2⟩, h⟩
        · rintro ⟨-, h⟩; exact h
      · rw [loadChunk_bad acc ch h1 h2, foldChunk_error]
        simp only [Except.isOk]
        constructor
        · intro h; exact absurd h (by simp [Except.toBool])
        · rintro ⟨⟨-, h⟩, -⟩; exact absurd h h2

theorem foldChunk_corrupt (L : List Bytes) : ∀ (acc : List Ccn) (e : StoreError),
    L.foldl loadChunk (.ok acc) = .error e → e.isCorruptData = true := by
  induction L with
  | nil => intro acc e h; exact absurd h (by simp)
  | cons ch rest ih =>
    intro acc e h
    rw [List.foldl_cons] at h
    by_cases h1 : ch.length < 36
    · rw [loadChunk_short acc ch h1, foldChunk_error] at h
      obtain rfl : StoreError.partialRecord = e := by
        simpa using h
      rfl
    · by_cases h2 : leU32 (ch.take 4) = crc32 ((ch.drop 4).take 32)
      · rw [loadChunk_good acc ch h1 h2] at h
        exact ih _ e h
      · rw [loadChunk_bad acc ch h1 h2, foldChunk_error] at h
        obtain rfl : StoreError.badChecksum = e := by
          simpa using h
        rfl

theorem recordValid_shift (content : Bytes) (i : Nat) :
    recordValid (content.drop 36) i ↔ recordValid content (i + 1) := by
  unfold recordValid
  rw [List.drop_drop]
  have h : 36 + 36 * i = 36 * (i + 1) := by ring
  rw [h]

theorem chunks36_valid_iff (content : Bytes) :
    (∀ ch ∈ chunksOf 36 content,
      36 ≤ ch.length ∧ leU32 (ch.take 4) = crc32 ((ch.drop 4).take 32)) ↔
    (content.length % 36 = 0 ∧ ∀ i < content.length / 36, recordValid content i) := by
  by_cases hne : content = []
  · subst hne
    constructor
    · intro _; exact ⟨rfl, fun i hi => absurd hi (by simp)⟩
    · intro _ ch hch
      exact absurd hch (by simp [chunksOf, chunksOfGo])
  · have hlen0 : content.length ≠ 0 := fun h => hne (List.eq_nil_of_length_eq_zero h)
    rw [chunksOf_cons 36 (by norm_num) content hne]
    by_cases hlen : content.length < 36
    · constructor
      · intro h
        exfalso
        have := (h (content.take 36) (by simp)).1
        rw [List.length_take] at this
        omega
      · rintro ⟨hmod, -⟩
        exfalso
        omega
    · have ih := chunks36_valid_iff (content.drop 36)
      have h0 : (36 ≤ (content.take 36).length ∧ leU32 ((content.take 36).take 4) =
          crc32 (((content.take 36).drop 4).take 32)) ↔ recordValid content 0 := by
        unfold recordValid
        rw [List.take_take, List.drop_take]
        have e1 : min 4 36 = 4 := by norm_num
        have e2 : (36 : Nat) - 4 = 32 := by norm_num
        rw [e1, e2, List.length_take]
        have e3 : min 36 content.length = 36 := by omega
        rw [e3]
        have e4 : 36 * 0 = 0 := by norm_num
        rw [e4, List.drop_zero, List.take_take]
        have e5 : min 32 32 = 32 := by norm_num
        rw [e5]
        constructor
        · rintro ⟨-, h⟩; exact h
        · intro h; exact ⟨le_rfl, h⟩
      rw [List.forall_mem_cons, ih, h0, List.length_drop]
      constructor
      · rintro ⟨h00, hmod, hrest⟩
        refine ⟨by omega, ?_⟩
        intro i hi
        cases i with
        | zero => exact h00
        | succ j =>
          rw [← recordValid_shift]
          exact hrest j (by omega)
      · rintro ⟨hmod, hall⟩
        refine ⟨hall 0 (by omega), by omega, ?_⟩
        intro j hj
        rw [recordValid_shift]
        exact hall (j + 1) (by omega)
termination_by content.length
decreasing_by
  rw [List.length_drop]
  omega

/-- Claim C5: a missing backing file loads as an empty bucket without
error; parsing succeeds exactly when the file splits into whole 36-byte
records whose checksums all match (a mismatch or trailing partial record
is a CorruptData failure); every load error is CorruptData; and a
successful load caches the validated set under the bucket index. -/
theorem c5_bucket_load (st : CcnStore) (b : Nat) (content : Bytes) :
    (st.buckets b = none → st.files b = none →
      ∃ st', st.ensureBucketLoaded b = .ok (true, st') ∧ st'.buckets b = some []) ∧
    ((loadRecords content).isOk = true ↔
      (content.length % 36 = 0 ∧ ∀ i < content.length / 36, recordValid content i)) ∧
    (∀ e, loadRecords content = .error e → e.isCorruptData = true) ∧
    (∀ s, st.buckets b = none → st.files b = some content →
      loadRecords content = .ok s →
      ∃ st', st.ensureBucketLoaded b = .ok (true, st') ∧ st'.buckets b = some s) := by
  refine ⟨?_, ?_, ?_, ?_⟩
  · intro hb hf
    refine ⟨⟨st.files, updateFn st.buckets b (some [])⟩, ?_, ?_⟩
    · unfold CcnStore.ensureBucketLoaded
      rw [hb, hf]
    · show updateFn st.buckets b (some []) b = _
      rw [updateFn, if_pos rfl]
  · exact (foldChunk_ok_iff _ []).trans (chunks36_valid_iff content)
  · intro e h
    exact foldChunk_corrupt _ [] e h
  · intro s hb hf hload
    refine ⟨⟨st.files, updateFn st.buckets b (some s)⟩, ?_, ?_⟩
    · unfold CcnStore.ensureBucketLoaded
      rw [hb, hf]
      show (loadRecords content >>= fun s => Except.ok (true,
        (⟨st.files, updateFn st.buckets b (some s)⟩ : CcnStore))) = _
      rw [hload, except_ok_bind]
    · show updateFn st.buckets b (some s) b = _
      rw [updateFn, if_pos rfl]


deriving instance DecidableEq for Except

/-- Claim C1 counterexample: submitting the same code twice at the same
current bucket returns true both times and appends two records, because
`has_ccn` scans only the 21 buckets strictly before the current one. -/
theorem c1_dedup_cex :
    ((CcnStore.opened.addCcn 100 ⟨List.replicate 32 0⟩).bind
        (fun r => r.2.addCcn 100 ⟨List.replicate 32 0⟩)).map
      (fun r => (r.1, r.2.files 100)) =
    .ok (true, some (ccnRecord ⟨List.replicate 32 0⟩ ++
      ccnRecord ⟨List.replicate 32 0⟩)) ∧
    (CcnStore.opened.addCcn 100 ⟨List.replicate 32 0⟩).map Prod.fst = .ok true :=
  ⟨by decide, by decide⟩

/-- Claim C1 witness at concrete buckets 21 and 22. -/
theorem c1_dedup_amended_witness :
    ∃ st1 st2, CcnStore.opened.addCcn 21 ⟨List.replicate 32 0⟩ = .ok (true, st1) ∧
      st1.files 21 = some (ccnRecord ⟨List.replicate 32 0⟩) ∧
      st1.addCcn 22 ⟨List.replicate 32 0⟩ = .ok (false, st2) ∧
      st2.files 21 = some (ccnRecord ⟨List.replicate 32 0⟩) ∧
      (∀ b, b ≠ 21 → st2.files b = none) :=
  c1_dedup_amended ⟨List.replicate 32 0⟩ 21 22 (by norm_num) (by norm_num)
    (by norm_num) (by norm_num [U64])

/-- Claim C3 counterexample: a corrupt bucket file inside an in-range
window makes `fetch_buckets` fail rather than succeed. -/
theorem c3_fetch_range_cex :
    ((CcnStore.mk (fun b => if b = 0 then some [1, 2, 3] else none)
      (fun _ => none)).fetchBuckets 0 0).map Prod.fst = .error .partialRecord := by
  decide

/-- Claim C3 witness: future timestamp, oversized range, and a clean
in-range fetch on the freshly opened store. -/
theorem c3_fetch_range_witness :
    CcnStore.opened.fetchBuckets 0 3600 = .ok ([], CcnStore.opened) ∧
    CcnStore.opened.fetchBuckets 505 0 = .error .rangeTooLarge ∧
    ∃ rv st', CcnStore.opened.fetchBuckets 0 0 = .ok (rv, st') ∧
      ∀ c : Ccn, c ∈ rv ↔ ∃ b, 0 / 3600 ≤ b ∧ b ≤ 0 ∧
        c ∈ CcnStore.opened.bucketCodes b :=
  ⟨(c3_fetch_range CcnStore.opened 0 3600).1 (by norm_num),
   (c3_fetch_range CcnStore.opened 505 0).2.1 (by norm_num) (by norm_num),
   (c3_fetch_range CcnStore.opened 0 0).2.2 (by norm_num) (by norm_num)
     (fun b _ _ => opened_loadable b)⟩

/-- Claim C4 witness at a single concrete code. -/
theorem c4_persistence_roundtrip_witness :
    (∀ c ∈ [(⟨List.replicate 32 1⟩ : Ccn)], ccnRecord c =
      u32le (crc32 c.bytes) ++ c.bytes ∧ (ccnRecord c).length = 36) ∧
    ∃ stf, addAll CcnStore.opened 50 [⟨List.replicate 32 1⟩] = .ok stf ∧
      (stf.files 50).getD [] = [(⟨List.replicate 32 1⟩ : Ccn)].flatMap ccnRecord ∧
      ∃ loaded st2,
        (CcnStore.mk stf.files (fun _ => none)).ensureBucketLoaded 50 =
          .ok (true, st2) ∧
        st2.buckets 50 = some loaded ∧
        ∀ x : Ccn, x ∈ loaded ↔ x ∈ [(⟨List.replicate 32 1⟩ : Ccn)] :=
  c4_persistence_roundtrip [⟨List.replicate 32 1⟩] 50 (by decide) (by simp)

/-- Claim C5 witness: a missing file loads as the empty bucket, and a
single well-formed record loads as its singleton set. -/
theorem c5_bucket_load_witness :
    (∃ st', CcnStore.opened.ensureBucketLoaded 0 = .ok (true, st') ∧
      st'.buckets 0 = some []) ∧
    ((loadRecords (ccnRecord ⟨List.replicate 32 0⟩)).isOk = true ↔
      ((ccnRecord ⟨List.replicate 32 0⟩).length % 36 = 0 ∧
        ∀ i < (ccnRecord ⟨List.replicate 32 0⟩).length / 36,
          recordValid (ccnRecord ⟨List.replicate 32 0⟩) i)) ∧
    ∃ st', (CcnStore.mk
        (fun b => if b = 0 then some (ccnRecord ⟨List.replicate 32 0⟩) else none)
        (fun _ => none)).ensureBucketLoaded 0 = .ok (true, st') ∧
      st'.buckets 0 = some [⟨List.replicate 32 0⟩] :=
  ⟨(c5_bucket_load CcnStore.opened 0 []).1 rfl rfl,
   (c5_bucket_load CcnStore.opened 0 (ccnRecord ⟨List.replicate 32 0⟩)).2.1,
   (c5_bucket_load (CcnStore.mk
       (fun b => if b = 0 then some (ccnRecord ⟨List.replicate 32 0⟩) else none)
       (fun _ => none)) 0 (ccnRecord ⟨List.replicate 32 0⟩)).2.2.2
     [⟨List.replicate 32 0⟩] rfl rfl (by decide)⟩

/-- Claim C9 counterexample: the same code persisted in two buckets of the
requested range is returned twice, not at most once. -/
theorem c9_fetch_set_cex :
    ((CcnStore.mk
        (fun b => if b ≤ 1 then some (ccnRecord ⟨List.replicate 32 0⟩) else none)
        (fun _ => none)).fetchBuckets 1 0).map
      (fun r => r.1.count ⟨List.replicate 32 0⟩) = .ok 2 := by
  decide

/-- Claim C9 witness: the double count equals the per-bucket sum. -/
theorem c9_fetch_multiplicity_witness :
    (2 : Nat) = ((List.range' 0 2).map
      (fun b => ((CcnStore.mk
        (fun b => if b ≤ 1 then some (ccnRecord ⟨List.replicate 32 0⟩) else none)
        (fun _ => none)).bucketCodes b).count
          (⟨List.replicate 32 0⟩ : Ccn))).sum :=
  c9_fetch_multiplicity _ 1 0 _ 2 (by decide)
